import Mathlib

/-!
Verification of the circuit-builder data model of the mq-website repository.

The definitions below are a shallow embedding of `src/lib/circuit/model.ts`
(circuit data model and pure operations) and of the gate-emission and
probability computation of `src/lib/sim/adapter.ts`.  JavaScript numbers used
as wire/column indices are modelled as `Int` (the code checks `< 0`), the
qubit count as `Nat` (only used as an array length / upper bound), and
`Record<string, number>` parameter maps as association lists over `ℚ`.
-/

namespace MQ

/-- Gate kinds of `model.ts`: `export type GateType = "H" | "X" | "Z" | "CNOT"`. -/
inductive GateType where
  | H
  | X
  | Z
  | CNOT
deriving DecidableEq

/-- The `GatePlacement` record of `model.ts`: `type`, required `targets`, optional
`controls`, optional `params`, and the stable `id` string. -/
structure GatePlacement where
  type : GateType
  targets : List Int
  controls : Option (List Int) := none
  params : Option (List (String × ℚ)) := none
  id : String
deriving DecidableEq

/-- The `Column` record of `model.ts`: `items: (GatePlacement | null)[]`. -/
structure Column where
  items : List (Option GatePlacement)
deriving DecidableEq

/-- The `Circuit` record of `model.ts`: `nQubits` and the column list. -/
structure Circuit where
  nQubits : Nat
  columns : List Column
deriving DecidableEq

/-- Embedding of `createEmptyCircuit(nQubits, nColumns)`. -/
def createEmptyCircuit (nQubits nColumns : Nat) : Circuit :=
  ⟨nQubits, List.replicate nColumns ⟨List.replicate nQubits none⟩⟩

/-- Embedding of `ensureColumns(c, nColumns)`: unchanged when already long enough,
otherwise append empty columns up to `nColumns`. -/
def ensureColumns (c : Circuit) (nColumns : Int) : Circuit :=
  if nColumns ≤ (c.columns.length : Int) then c
  else
    { c with
      columns :=
        c.columns ++
          List.replicate (nColumns - (c.columns.length : Int)).toNat
            ⟨List.replicate c.nQubits none⟩ }

/-- The spread copy `{...it, targets: [...], controls: ..., params: ...}` in
`cloneCircuit`; copying JS arrays/objects is value identity in this model
(note: `it.controls ? [...it.controls] : undefined` keeps an empty array,
since `[]` is truthy in JS, so the option structure is preserved exactly). -/
def clonePlacement (g : GatePlacement) : GatePlacement :=
  ⟨g.type, g.targets, g.controls, g.params, g.id⟩

/-- Embedding of `cloneCircuit(c)`. -/
def cloneCircuit (c : Circuit) : Circuit :=
  ⟨c.nQubits, c.columns.map fun col => ⟨col.items.map fun it => it.map clonePlacement⟩⟩

/-- JS `Set` insertion: add `x` unless already present (first occurrence kept). -/
def jsSetInsert (s : List Int) (x : Int) : List Int :=
  if x ∈ s then s else s ++ [x]

/-- The contents of `new Set` fed from a list, in insertion order. -/
def jsSetOf (l : List Int) : List Int :=
  l.foldl jsSetInsert []

/-- Embedding of `[...s].sort((a, b) => a - b)`: ascending numeric sort. -/
def sortInts (l : List Int) : List Int :=
  l.insertionSort (· ≤ ·)

/-- Embedding of `involvedWires(g)`: targets and controls collected into a `Set`,
then sorted ascending. -/
def involvedWires (g : GatePlacement) : List Int :=
  sortInts (jsSetOf (g.targets ++ g.controls.getD []))

/-- Reading `c.columns[t].items[q]`; out-of-range reads give `null`/absent. -/
def slotAt (c : Circuit) (t q : Int) : Option GatePlacement :=
  if 0 ≤ t ∧ 0 ≤ q then
    (c.columns[t.toNat]?).bind fun col => (col.items[q.toNat]?).getD none
  else none

/-- The effective reference id `movingId || g.id` of `validatePlacement`
(JS `||`: an empty `movingId` string is falsy and falls back to `g.id`). -/
def effId (movingId : Option String) (gid : String) : String :=
  match movingId with
  | none => gid
  | some m => if m = "" then gid else m

/-- Result record `{ ok, reason? }` of `validatePlacement`. -/
structure VResult where
  ok : Bool
  reason : Option String := none
deriving DecidableEq

/-- The `for (const q of involvedWires(g))` loop body of `validatePlacement`:
per wire, the bounds check, then the occupancy check, with early return. -/
def validateLoop (c : Circuit) (t : Int) (eid : String) : List Int → Option String
  | [] => none
  | q :: rest =>
    if q < 0 ∨ (c.nQubits : Int) ≤ q then some "wire_oob"
    else
      match slotAt c t q with
      | some existing =>
        if existing.id ≠ eid then some "occupied" else validateLoop c t eid rest
      | none => validateLoop c t eid rest

/-- Embedding of `validatePlacement(c, t, g, movingId?)`. -/
def validatePlacement (c : Circuit) (t : Int) (g : GatePlacement)
    (movingId : Option String := none) : VResult :=
  if t < 0 ∨ (c.columns.length : Int) ≤ t then ⟨false, some "time_oob"⟩
  else
    match validateLoop c t (effId movingId g.id) (involvedWires g) with
    | some r => ⟨false, some r⟩
    | none =>
      if (g.controls.getD []).any (fun q => g.targets.contains q) then
        ⟨false, some "control_eq_target"⟩
      else ⟨true, none⟩

/-- The options record of `addGate`. -/
structure AddOpts where
  occupyInvolved : Option Bool := none
  overwrite : Option Bool := none
deriving DecidableEq

/-- The default `opts?.occupyInvolved !== false` (default `true`). -/
def occupyOf (opts : Option AddOpts) : Bool :=
  opts.bind AddOpts.occupyInvolved ≠ some false

/-- Truthiness of `opts?.overwrite` (default `false`). -/
def owOf (opts : Option AddOpts) : Bool :=
  (opts.bind AddOpts.overwrite).getD false

/-- The wires `addGate` writes into: `involvedWires(g)` when
`occupyInvolved`, else just `g.targets`. -/
def addWires (g : GatePlacement) (opts : Option AddOpts) : List Int :=
  if occupyOf opts then involvedWires g else g.targets

/-- Replace list element `i` by `f` of it; no-op out of range. -/
def updateAt {α : Type} : List α → Nat → (α → α) → List α
  | [], _, _ => []
  | x :: xs, 0, f => f x :: xs
  | x :: xs, n + 1, f => x :: updateAt xs n f

/-- The assigned slot value `opts?.overwrite ? g : col.items[q] || g`. -/
def slotWrite (ow : Bool) (g : GatePlacement) (slot : Option GatePlacement) :
    Option GatePlacement :=
  some (if ow then g else slot.getD g)

/-- One slot assignment `col.items[q] = opts?.overwrite ? g : col.items[q] || g`.
A negative `q` would go to a non-index JS property that no reader of the model
ever consults, so it is a no-op on the items array. -/
def writeWire (ow : Bool) (g : GatePlacement)
    (items : List (Option GatePlacement)) (q : Int) : List (Option GatePlacement) :=
  if 0 ≤ q then updateAt items q.toNat (slotWrite ow g) else items

/-- Embedding of `addGate(c, t, g, opts)`.  The clone is updated at column `t`; a
`t` outside `[0, columns.length)` would make the JS code fault on
`undefined.items` — every claim about `addGate` restricts `t` to be in
range, so that path is modelled as leaving the clone unchanged. -/
def addGate (c : Circuit) (t : Int) (g : GatePlacement)
    (opts : Option AddOpts := none) : Circuit :=
  let nc := cloneCircuit c
  if 0 ≤ t then
    { nc with
      columns :=
        updateAt nc.columns t.toNat fun col =>
          ⟨(addWires g opts).foldl (writeWire (owOf opts) g) col.items⟩ }
  else nc

/-- The test `col.items[q]?.id === id` for a slot value. -/
def slotMatches (id : String) : Option GatePlacement → Bool
  | none => false
  | some g => g.id = id

/-- The inner `for (let q = 0; q < nQubits; q++)` clearing loop of
`removeGateById`, with `q` the index of the head of the remaining list. -/
def clearSlots (nQ : Nat) (id : String) : Nat → List (Option GatePlacement) → List (Option GatePlacement)
  | _, [] => []
  | q, it :: rest =>
    (if q < nQ ∧ slotMatches id it then none else it) :: clearSlots nQ id (q + 1) rest

/-- Embedding of `removeGateById(c, id)`. -/
def removeGateById (c : Circuit) (id : String) : Circuit :=
  let nc := cloneCircuit c
  ⟨nc.nQubits, nc.columns.map fun col => ⟨clearSlots nc.nQubits id 0 col.items⟩⟩

/-- The `{tOld, gate}` record returned by `findGate`. -/
structure FindResult where
  tOld : Int
  gate : GatePlacement
deriving DecidableEq

/-- The inner wire scan of `findGate`: first matching placement among
`items[0..n)`. -/
def findInItems (id : String) (n : Nat) (items : List (Option GatePlacement)) :
    Option GatePlacement :=
  (List.range n).findSome? fun q =>
    match (items[q]?).getD none with
    | some g => if g.id = id then some g else none
    | none => none

/-- Embedding of `findGate(c, id)`: first column (then first wire) holding the id. -/
def findGate (c : Circuit) (id : String) : Option FindResult :=
  (List.range c.columns.length).findSome? fun t =>
    match c.columns[t]? with
    | some col => (findInItems id c.nQubits col.items).map fun g => ⟨(t : Int), g⟩
    | none => none

/-- The candidate `{...gate, targets: [qTargetNew]}` built by `moveGateById`. -/
def mkUpdated (g : GatePlacement) (qTargetNew : Int) : GatePlacement :=
  { g with targets := [qTargetNew] }

/-- Embedding of `moveGateById(c, id, tNew, qTargetNew)`. -/
def moveGateById (c : Circuit) (id : String) (tNew qTargetNew : Int) : Circuit :=
  match findGate c id with
  | none => c
  | some info =>
    let updated := mkUpdated info.gate qTargetNew
    if (validatePlacement c tNew updated (some id)).ok then
      addGate (removeGateById c id) tNew updated
    else c

/-- Embedding of `serializeCircuit(c)`: every occupied slot reduced to
`{type, targets, controls: g.controls || [], params: g.params || {}, id}`. -/
def serializeCircuit (c : Circuit) : Circuit :=
  ⟨c.nQubits, c.columns.map fun col =>
    ⟨col.items.map fun it =>
      it.map fun g => ⟨g.type, g.targets, some (g.controls.getD []), some (g.params.getD []), g.id⟩⟩⟩

/-- The occupancy part of one loop iteration: the slot is empty or already
holds the effective id. -/
def freeOrOwn (c : Circuit) (t q : Int) (eid : String) : Bool :=
  match slotAt c t q with
  | none => true
  | some e => e.id == eid

/-- One wire passes its loop iteration: in bounds and free-or-own. -/
def wirePass (c : Circuit) (t : Int) (eid : String) (q : Int) : Bool :=
  (decide (0 ≤ q) && decide (q < (c.nQubits : Int))) && freeOrOwn c t q eid

/-- Concrete gate for the C1 counterexample: an H occupying wire 0, id `a`. -/
def c1gA : GatePlacement := ⟨.H, [0], none, none, "a"⟩

/-- Candidate for the C1 counterexample: involved wires 0 and 2 on a 2-wire circuit. -/
def c1gB : GatePlacement := ⟨.H, [0, 2], none, none, "b"⟩

/-- A 2-wire, 5-column circuit with gate `a` at slot (0,0). -/
def c1circ : Circuit := addGate (createEmptyCircuit 2 5) 0 c1gA

/-- The H gate of scenario A, id `a`. -/
def c2gA : GatePlacement := ⟨.H, [0], none, none, "a"⟩

/-- Scenario A circuit: `createEmpty(3,12)` with an H at (0,0). -/
def c2circ : Circuit := addGate (createEmptyCircuit 3 12) 0 c2gA

/-- All columns have exactly `nQubits` slots — the documented shape of the
`Column` type (`length = nQubits`). -/
def ShapeOK (c : Circuit) : Prop :=
  ∀ col ∈ c.columns, col.items.length = c.nQubits

instance (c : Circuit) : Decidable (ShapeOK c) :=
  inferInstanceAs (Decidable (∀ col ∈ c.columns, col.items.length = c.nQubits))

/-- First gate written in the C4 witness circuit. -/
def c4gA : GatePlacement := ⟨.H, [0], none, none, "a"⟩

/-- Second gate attempted at the occupied slot in the C4 witness. -/
def c4gB : GatePlacement := ⟨.X, [0], none, none, "b"⟩

/-- A 2-wire circuit with gate `a` at slot (1,0). -/
def c4circ : Circuit := addGate (createEmptyCircuit 2 3) 1 c4gA

/-- The gate kept by the C6 witness. -/
def c6gA : GatePlacement := ⟨.H, [0], none, none, "a"⟩

/-- A 2-wire circuit with gate `a` at slot (0,0). -/
def c6circ : Circuit := addGate (createEmptyCircuit 2 3) 0 c6gA

/-- The per-placement reduction performed by `serializeCircuit`:
`{type, targets, controls: g.controls || [], params: g.params || {}, id}`. -/
def serializeGP (g : GatePlacement) : GatePlacement :=
  ⟨g.type, g.targets, some (g.controls.getD []), some (g.params.getD []), g.id⟩

/-- The gate serialized in the C7 witness (absent controls and params). -/
def c7gA : GatePlacement := ⟨.H, [0], none, none, "a"⟩

/-- Circuit for the C7 witness: `createEmpty(3,12)` with an H at (0,0). -/
def c7circ : Circuit := addGate (createEmptyCircuit 3 12) 0 c7gA

/-- Gate `a` at wire 0 for scenario E. -/
def c3gA : GatePlacement := ⟨.H, [0], none, none, "a"⟩

/-- Gate `b` at wire 1 for scenario E. -/
def c3gB : GatePlacement := ⟨.X, [1], none, none, "b"⟩

/-- Scenario E circuit: gates `a` and `b` in column 0 of a 2-wire circuit. -/
def c3circ : Circuit := addGate (addGate (createEmptyCircuit 2 3) 0 c3gA) 0 c3gB

/-- Circuit for the C9 witness. -/
def c9circ : Circuit := addGate (createEmptyCircuit 2 3) 0 ⟨.H, [0], none, none, "a"⟩

/-- A committed CNOT: control wire 0, target wire 2. -/
def c10g : GatePlacement := ⟨.CNOT, [2], some [0], none, "cg"⟩

/-- Circuit for the C10 theorem witness: the CNOT of `c10g` at column 1. -/
def c10circ : Circuit := addGate (createEmptyCircuit 3 4) 1 c10g

/-- One `qc.addGate(name, column, wires)` call issued by `buildAndRun`
(`adapter.ts`); a missing wire (JS `undefined`, as in `controls[0]` of a
control-less CNOT) is `none`. -/
structure GateOp where
  name : String
  column : Int
  wires : List (Option Int)
deriving DecidableEq

/-- The switch on `gp.type` in `buildAndRun`: h/x/z on the targets, CNOT as
`cx` on `[controls[0], targets[0]]` (the `cnot` fallback of the try/catch is
the same logical operation). -/
def opOf (t : Int) (g : GatePlacement) : GateOp :=
  match g.type with
  | .H => ⟨"h", t, g.targets.map some⟩
  | .X => ⟨"x", t, g.targets.map some⟩
  | .Z => ⟨"z", t, g.targets.map some⟩
  | .CNOT => ⟨"cx", t, [(g.controls.getD []).head?, g.targets.head?]⟩

/-- One step of the `unique` collection loop of `buildAndRun`:
`if (gp && !unique[gp.id]) unique[gp.id] = gp` (the `Record` is modelled as
the id-keyed dictionary it is used as; the app ids are `g_`-prefixed, so
no collision with object-prototype keys arises). -/
def uniqStep (col : Column) (acc : List GatePlacement) (q : Nat) : List GatePlacement :=
  match (col.items[q]?).getD none with
  | none => acc
  | some gp => if acc.any fun h => h.id == gp.id then acc else acc ++ [gp]

/-- The per-column deduplicated gate list (`Object.values(unique)` in the
first-insertion order produced by scanning wires `0..nQubits`). -/
def colUniqueGates (n : Nat) (col : Column) : List GatePlacement :=
  (List.range n).foldl (uniqStep col) []

/-- All ops emitted for column `t`. -/
def colOps (c : Circuit) (t : Nat) : List GateOp :=
  match c.columns[t]? with
  | some col => (colUniqueGates c.nQubits col).map (opOf (t : Int))
  | none => []

/-- All ops emitted by `buildAndRun`, columns in increasing order. -/
def emitOps (c : Circuit) : List GateOp :=
  ((List.range c.columns.length).map fun t => colOps c t).flatten

/-- The computation `statevector.re.map((re, i) => re * re + im[i] * im[i])`,
with the index running from `i0`. -/
def probsGo (im : List ℚ) : Nat → List ℚ → List ℚ
  | _, [] => []
  | i, r :: rest => (r * r + im.getD i 0 * im.getD i 0) :: probsGo im (i + 1) rest

/-- The probability vector computed by `buildAndRun` from the statevector. -/
def probsOf (re im : List ℚ) : List ℚ :=
  probsGo im 0 re

/-- A committed CNOT occupying wires 0 and 2 of its column. -/
def c8g : GatePlacement := ⟨.CNOT, [2], some [0], none, "cg"⟩

/-- Circuit for the C8 scenario: the CNOT of `c8g` at column 1 of `createEmpty(3,4)`. -/
def c8circ : Circuit := addGate (createEmptyCircuit 3 4) 1 c8g

/-! ### Lemmas and claim theorems -/

theorem clonePlacement_eq (g : GatePlacement) : clonePlacement g = g := rfl

theorem cloneColumn_eq (col : Column) :
    (⟨col.items.map fun it => it.map clonePlacement⟩ : Column) = col := by
  cases col with
  | mk items =>
    simp only [Column.mk.injEq]
    induction items with
    | nil => rfl
    | cons x xs ih =>
      simp only [List.map_cons, ih, List.cons.injEq, and_true]
      cases x <;> rfl

theorem cloneCircuit_eq (c : Circuit) : cloneCircuit c = c := by
  cases c with
  | mk n cols =>
    simp only [cloneCircuit, Circuit.mk.injEq, true_and]
    induction cols with
    | nil => rfl
    | cons col rest ih => rw [List.map_cons, ih, cloneColumn_eq]

theorem updateAt_length {α : Type} (l : List α) (i : Nat) (f : α → α) :
    (updateAt l i f).length = l.length := by
  induction l generalizing i with
  | nil => rfl
  | cons x xs ih =>
    cases i with
    | zero => rfl
    | succ n => simp [updateAt, ih]

theorem updateAt_get_self {α : Type} (l : List α) (i : Nat) (f : α → α) :
    (updateAt l i f)[i]? = (l[i]?).map f := by
  induction l generalizing i with
  | nil => simp [updateAt]
  | cons x xs ih =>
    cases i with
    | zero => simp [updateAt]
    | succ n => simpa [updateAt] using ih n

theorem updateAt_get_ne {α : Type} (l : List α) (i j : Nat) (f : α → α) (h : j ≠ i) :
    (updateAt l i f)[j]? = l[j]? := by
  induction l generalizing i j with
  | nil => rfl
  | cons x xs ih =>
    cases i with
    | zero =>
      cases j with
      | zero => exact absurd rfl h
      | succ m => simp [updateAt]
    | succ n =>
      cases j with
      | zero => simp [updateAt]
      | succ m => simpa [updateAt] using ih n m (fun hh => h (by omega))

theorem jsSetOf_aux_mem (l : List Int) (s : List Int) (x : Int) :
    x ∈ l.foldl jsSetInsert s ↔ x ∈ s ∨ x ∈ l := by
  induction l generalizing s with
  | nil => simp
  | cons y ys ih =>
    simp only [List.foldl_cons, jsSetInsert]
    by_cases hy : y ∈ s
    · simp only [hy, if_true, ih, List.mem_cons]
      constructor
      · rintro (h | h)
        · exact Or.inl h
        · exact Or.inr (Or.inr h)
      · rintro (h | rfl | h)
        · exact Or.inl h
        · exact Or.inl hy
        · exact Or.inr h
    · simp only [hy, if_false, ih, List.mem_append, List.mem_singleton, List.mem_cons]
      tauto

theorem jsSetOf_aux_nodup (l : List Int) (s : List Int) (hs : s.Nodup) :
    (l.foldl jsSetInsert s).Nodup := by
  induction l generalizing s with
  | nil => exact hs
  | cons y ys ih =>
    simp only [List.foldl_cons, jsSetInsert]
    by_cases hy : y ∈ s
    · simpa [hy] using ih s hs
    · refine ih _ ?_
      simp only [hy, if_false]
      simpa [List.nodup_append] using ⟨hs, hy⟩

theorem mem_jsSetOf (l : List Int) (x : Int) : x ∈ jsSetOf l ↔ x ∈ l := by
  simpa [jsSetOf] using jsSetOf_aux_mem l [] x

theorem jsSetOf_nodup (l : List Int) : (jsSetOf l).Nodup :=
  jsSetOf_aux_nodup l [] List.nodup_nil

theorem sortInts_perm (l : List Int) : List.Perm (sortInts l) l :=
  List.perm_insertionSort _ l

theorem sortInts_sorted (l : List Int) : (sortInts l).Sorted (· ≤ ·) :=
  List.sorted_insertionSort _ l

theorem mem_involvedWires (g : GatePlacement) (x : Int) :
    x ∈ involvedWires g ↔ x ∈ g.targets ∨ x ∈ g.controls.getD [] := by
  rw [involvedWires, (sortInts_perm _).mem_iff, mem_jsSetOf, List.mem_append]

theorem involvedWires_nodup (g : GatePlacement) : (involvedWires g).Nodup :=
  (sortInts_perm _).nodup_iff.mpr (jsSetOf_nodup _)

theorem involvedWires_sorted_lt (g : GatePlacement) :
    (involvedWires g).Pairwise (· < ·) := by
  have hs : (involvedWires g).Pairwise (· ≤ ·) := sortInts_sorted _
  have hn : (involvedWires g).Pairwise (· ≠ ·) := involvedWires_nodup g
  exact (hs.and hn).imp fun h => lt_of_le_of_ne h.1 h.2

theorem targets_subset_involvedWires (g : GatePlacement) (x : Int)
    (hx : x ∈ g.targets) : x ∈ involvedWires g :=
  (mem_involvedWires g x).mpr (Or.inl hx)

theorem controls_subset_involvedWires (g : GatePlacement) (x : Int)
    (hx : x ∈ g.controls.getD []) : x ∈ involvedWires g :=
  (mem_involvedWires g x).mpr (Or.inr hx)

theorem validateLoop_none_iff (c : Circuit) (t : Int) (eid : String) (ws : List Int) :
    validateLoop c t eid ws = none ↔ ∀ q ∈ ws, wirePass c t eid q = true := by
  induction ws with
  | nil => simp [validateLoop]
  | cons q rest ih =>
    simp only [validateLoop]
    by_cases hb : q < 0 ∨ (c.nQubits : Int) ≤ q
    · simp only [if_pos hb]
      constructor
      · intro h; cases h
      · intro h
        have hq := h q (List.mem_cons_self q rest)
        simp only [wirePass, Bool.and_eq_true, decide_eq_true_eq] at hq
        omega
    · simp only [if_neg hb]
      have hbq : 0 ≤ q ∧ q < (c.nQubits : Int) := by omega
      cases hslot : slotAt c t q with
      | none =>
        rw [ih]
        constructor
        · intro h p hp
          rcases List.mem_cons.mp hp with rfl | hp'
          · simp [wirePass, freeOrOwn, hslot, hbq.1, hbq.2]
          · exact h p hp'
        · intro h p hp; exact h p (List.mem_cons_of_mem _ hp)
      | some e =>
        by_cases hid : e.id = eid
        · simp only [hid, ne_eq, not_true_eq_false, if_false, ih]
          constructor
          · intro h p hp
            rcases List.mem_cons.mp hp with rfl | hp'
            · simp [wirePass, freeOrOwn, hslot, hbq.1, hbq.2, hid]
            · exact h p hp'
          · intro h p hp; exact h p (List.mem_cons_of_mem _ hp)
        · simp only [ne_eq, hid, not_false_eq_true, if_true]
          constructor
          · intro h; cases h
          · intro h
            have hq := h q (List.mem_cons_self q rest)
            simp [wirePass, freeOrOwn, hslot] at hq
            exact (hid hq.2).elim

theorem validateLoop_cases (c : Circuit) (t : Int) (eid : String) (ws : List Int) :
    validateLoop c t eid ws = none ∨ validateLoop c t eid ws = some "wire_oob" ∨
      validateLoop c t eid ws = some "occupied" := by
  induction ws with
  | nil => exact Or.inl rfl
  | cons q rest ih =>
    simp only [validateLoop]
    by_cases hb : q < 0 ∨ (c.nQubits : Int) ≤ q
    · simp [hb]
    · simp only [if_neg hb]
      cases hslot : slotAt c t q with
      | none => exact ih
      | some e =>
        by_cases hid : e.id = eid
        · simpa [hid] using ih
        · simp [hid]

theorem validateLoop_wire_oob_iff (c : Circuit) (t : Int) (eid : String) (ws : List Int) :
    validateLoop c t eid ws = some "wire_oob" ↔
      ∃ l₁ q l₂, ws = l₁ ++ q :: l₂ ∧ (∀ p ∈ l₁, wirePass c t eid p = true) ∧
        (q < 0 ∨ (c.nQubits : Int) ≤ q) := by
  induction ws with
  | nil =>
    constructor
    · intro h; cases h
    · rintro ⟨l₁, q, l₂, h, -, -⟩
      exact absurd h (by simp)
  | cons q rest ih =>
    simp only [validateLoop]
    by_cases hb : q < 0 ∨ (c.nQubits : Int) ≤ q
    · simp only [if_pos hb, true_iff]
      exact ⟨[], q, rest, rfl, by simp, hb⟩
    · simp only [if_neg hb]
      have hbq : 0 ≤ q ∧ q < (c.nQubits : Int) := by omega
      have hqpass : ∀ hfo : freeOrOwn c t q eid = true, wirePass c t eid q = true := by
        intro hfo
        simp [wirePass, hbq.1, hbq.2, hfo]
      have step : ∀ hfo : freeOrOwn c t q eid = true,
          (validateLoop c t eid rest = some "wire_oob" ↔
            ∃ l₁ p l₂, q :: rest = l₁ ++ p :: l₂ ∧
              (∀ x ∈ l₁, wirePass c t eid x = true) ∧
              (p < 0 ∨ (c.nQubits : Int) ≤ p)) := by
        intro hfo
        rw [ih]
        constructor
        · rintro ⟨l₁, p, l₂, hsplit, hpass, hoob⟩
          refine ⟨q :: l₁, p, l₂, by rw [hsplit]; rfl, ?_, hoob⟩
          intro x hx
          rcases List.mem_cons.mp hx with rfl | hx'
          · exact hqpass hfo
          · exact hpass x hx'
        · rintro ⟨l₁, p, l₂, hsplit, hpass, hoob⟩
          cases l₁ with
          | nil =>
            simp only [List.nil_append, List.cons.injEq] at hsplit
            exact absurd (hsplit.1 ▸ hoob) (by omega)
          | cons a l₁' =>
            simp only [List.cons_append, List.cons.injEq] at hsplit
            refine ⟨l₁', p, l₂, hsplit.2, ?_, hoob⟩
            intro x hx
            exact hpass x (hsplit.1 ▸ List.mem_cons_of_mem _ hx)
      cases hslot : slotAt c t q with
      | none =>
        exact step (by simp [freeOrOwn, hslot])
      | some e =>
        by_cases hid : e.id = eid
        · simp only [hid, ne_eq, not_true_eq_false, if_false]
          exact step (by simp [freeOrOwn, hslot, hid])
        · simp only [ne_eq, hid, not_false_eq_true, if_true]
          constructor
          · intro h
            exact absurd (Option.some.injEq _ _ ▸ h) (by simp)
          · rintro ⟨l₁, p, l₂, hsplit, hpass, hoob⟩
            cases l₁ with
            | nil =>
              simp only [List.nil_append, List.cons.injEq] at hsplit
              exact absurd (hsplit.1 ▸ hoob) (by omega)
            | cons a l₁' =>
              simp only [List.cons_append, List.cons.injEq] at hsplit
              have hq := hpass q (hsplit.1 ▸ List.mem_cons_self a _)
              simp [wirePass, freeOrOwn, hslot] at hq
              exact absurd hq.2 hid

theorem validatePlacement_time_oob_of (c : Circuit) (t : Int) (g : GatePlacement)
    (m : Option String) (h : t < 0 ∨ (c.columns.length : Int) ≤ t) :
    validatePlacement c t g m = ⟨false, some "time_oob"⟩ := by
  simp [validatePlacement, h]

theorem validatePlacement_reason_loop (c : Circuit) (t : Int) (g : GatePlacement)
    (m : Option String) (h : ¬(t < 0 ∨ (c.columns.length : Int) ≤ t)) (r : String)
    (hr : validateLoop c t (effId m g.id) (involvedWires g) = some r) :
    validatePlacement c t g m = ⟨false, some r⟩ := by
  simp only [validatePlacement, if_neg h, hr]

theorem validatePlacement_loop_none (c : Circuit) (t : Int) (g : GatePlacement)
    (m : Option String) (h : ¬(t < 0 ∨ (c.columns.length : Int) ≤ t))
    (h1 : validateLoop c t (effId m g.id) (involvedWires g) = none) :
    validatePlacement c t g m =
      (if (g.controls.getD []).any (fun q => g.targets.contains q) then
        ⟨false, some "control_eq_target"⟩ else ⟨true, none⟩) := by
  simp only [validatePlacement, if_neg h, h1]

theorem validatePlacement_not_time_oob (c : Circuit) (t : Int) (g : GatePlacement)
    (m : Option String) (h : ¬(t < 0 ∨ (c.columns.length : Int) ≤ t)) :
    (validatePlacement c t g m).reason ≠ some "time_oob" := by
  rcases validateLoop_cases c t (effId m g.id) (involvedWires g) with h1 | h1 | h1
  · rw [validatePlacement_loop_none c t g m h h1]
    by_cases hc : ((g.controls.getD []).any fun q => g.targets.contains q) = true
    · rw [if_pos hc]; decide
    · rw [if_neg hc]; decide
  · rw [validatePlacement_reason_loop c t g m h _ h1]; decide
  · rw [validatePlacement_reason_loop c t g m h _ h1]; decide

theorem validatePlacement_ok_loop_none (c : Circuit) (t : Int) (g : GatePlacement)
    (m : Option String) (h : (validatePlacement c t g m).ok = true) :
    ¬(t < 0 ∨ (c.columns.length : Int) ≤ t) ∧
      validateLoop c t (effId m g.id) (involvedWires g) = none := by
  by_cases ht : t < 0 ∨ (c.columns.length : Int) ≤ t
  · rw [validatePlacement_time_oob_of c t g m ht] at h
    cases h
  · refine ⟨ht, ?_⟩
    rcases validateLoop_cases c t (effId m g.id) (involvedWires g) with h1 | h1 | h1
    · exact h1
    · rw [validatePlacement_reason_loop c t g m ht _ h1] at h; cases h
    · rw [validatePlacement_reason_loop c t g m ht _ h1] at h; cases h

theorem validatePlacement_wire_oob_iff_loop (c : Circuit) (t : Int) (g : GatePlacement)
    (m : Option String) (h : ¬(t < 0 ∨ (c.columns.length : Int) ≤ t)) :
    (validatePlacement c t g m).reason = some "wire_oob" ↔
      validateLoop c t (effId m g.id) (involvedWires g) = some "wire_oob" := by
  constructor
  · intro hr
    rcases validateLoop_cases c t (effId m g.id) (involvedWires g) with h1 | h1 | h1
    · exfalso
      rw [validatePlacement_loop_none c t g m h h1] at hr
      by_cases hc : ((g.controls.getD []).any fun q => g.targets.contains q) = true
      · rw [if_pos hc] at hr; exact absurd hr (by decide)
      · rw [if_neg hc] at hr; exact absurd hr (by decide)
    · exact h1
    · rw [validatePlacement_reason_loop c t g m h _ h1] at hr
      exact absurd hr (by decide)
  · intro h1
    rw [validatePlacement_reason_loop c t g m h _ h1]

/-- On a strictly ascending wire list (as `involvedWires` produces), the loop
reaching an out-of-bounds wire with all earlier wires passing is the same as
some out-of-bounds wire all of whose smaller listed wires pass. -/
theorem exists_split_iff_min (c : Circuit) (t : Int) (eid : String) (ws : List Int)
    (hsort : ws.Pairwise (· < ·)) :
    (∃ l₁ q l₂, ws = l₁ ++ q :: l₂ ∧ (∀ p ∈ l₁, wirePass c t eid p = true) ∧
        (q < 0 ∨ (c.nQubits : Int) ≤ q)) ↔
      ∃ q ∈ ws, (q < 0 ∨ (c.nQubits : Int) ≤ q) ∧
        ∀ p ∈ ws, p < q → wirePass c t eid p = true := by
  constructor
  · rintro ⟨l₁, q, l₂, rfl, hpass, hoob⟩
    rw [List.pairwise_append] at hsort
    refine ⟨q, by simp, hoob, ?_⟩
    intro p hp hlt
    rcases List.mem_append.mp hp with hp1 | hp2
    · exact hpass p hp1
    · rcases List.mem_cons.mp hp2 with rfl | hp3
      · omega
      · exact absurd (List.rel_of_pairwise_cons hsort.2.1 hp3) (by omega)
  · rintro ⟨q, hq, hoob, hmin⟩
    obtain ⟨l₁, l₂, rfl⟩ := List.append_of_mem hq
    rw [List.pairwise_append] at hsort
    refine ⟨l₁, q, l₂, rfl, ?_, hoob⟩
    intro p hp
    exact hmin p (List.mem_append.mpr (Or.inl hp))
      (hsort.2.2 p hp q (List.mem_cons_self q l₂))

/-- Claim C1 counterexample: on a 2-wire circuit whose slot (0,0) is occupied
by a foreign gate, a candidate involving wires 0 and 2 has wire 2 out of
bounds and the column index in range, yet `validatePlacement` answers
`occupied`, not `wire_oob` as the claim states: the bounds check is not
applied to every involved wire before any occupancy check. -/
theorem validatePlacement_order_counterexample :
    ¬((0 : Int) < 0 ∨ (c1circ.columns.length : Int) ≤ 0) ∧
      (2 : Int) ∈ involvedWires c1gB ∧
      ¬((2 : Int) < (c1circ.nQubits : Int)) ∧
      validatePlacement c1circ 0 c1gB none ≠ ⟨false, some "wire_oob"⟩ ∧
      validatePlacement c1circ 0 c1gB none = ⟨false, some "occupied"⟩ := by
  decide

/-- Claim C1 (amended): `validatePlacement` answers `time_oob` exactly when
the column index is outside `[0, columns.length)`; otherwise it scans
`involvedWires` in ascending order checking, for each wire, bounds first and
occupancy second, so the answer is `wire_oob` exactly when some involved wire
is out of `[0, wireCount)` and every smaller involved wire both is in bounds
and has its slot empty or owned by the effective id.  In particular, on
`createEmpty(2,5)` a placement with `targets=[2]` yields `wire_oob`. -/
theorem validatePlacement_order_amended (c : Circuit) (t : Int) (g : GatePlacement)
    (m : Option String) :
    ((t < 0 ∨ (c.columns.length : Int) ≤ t) ↔
        (validatePlacement c t g m).reason = some "time_oob") ∧
      (¬(t < 0 ∨ (c.columns.length : Int) ≤ t) →
        ((validatePlacement c t g m).reason = some "wire_oob" ↔
          ∃ q ∈ involvedWires g, (q < 0 ∨ (c.nQubits : Int) ≤ q) ∧
            ∀ p ∈ involvedWires g, p < q → wirePass c t (effId m g.id) p = true)) ∧
      validatePlacement (createEmptyCircuit 2 5) 0 ⟨.H, [2], none, none, "x"⟩ none =
        ⟨false, some "wire_oob"⟩ := by
  refine ⟨⟨fun h => by rw [validatePlacement_time_oob_of c t g m h], fun h => ?_⟩, ?_, by decide⟩
  · by_contra ht
    exact validatePlacement_not_time_oob c t g m ht h
  · intro ht
    rw [validatePlacement_wire_oob_iff_loop c t g m ht,
      validateLoop_wire_oob_iff,
      exists_split_iff_min c t (effId m g.id) (involvedWires g) (involvedWires_sorted_lt g)]

/-- Concrete use of the amended C1 theorem: scenario C discharged through it. -/
theorem validatePlacement_order_amended_witness :
    (validatePlacement (createEmptyCircuit 2 5) 1 ⟨.H, [2], none, none, "x"⟩ none).reason =
      some "wire_oob" := by
  have h := (validatePlacement_order_amended (createEmptyCircuit 2 5) 1
    ⟨.H, [2], none, none, "x"⟩ none).2.1 (by decide)
  exact h.mpr ⟨2, by decide, by decide, by decide⟩

/-- Claim C2: with the column index in range and all involved wires in
`[0, wireCount)`, `validatePlacement` answers ok only if every involved
wire slot is empty or occupied by a placement whose id is the candidate own
id or the provided `movingId`; and when some involved wire slot is
occupied by any other placement it answers `occupied`.  Scenario A: after
adding an H gate at (0,0) of `createEmpty(3,12)`, validating a fresh
placement at (0,0) answers `occupied`. -/
theorem validatePlacement_occupancy :
    (∀ (c : Circuit) (t : Int) (g : GatePlacement) (m : Option String),
      ¬(t < 0 ∨ (c.columns.length : Int) ≤ t) →
      (∀ q ∈ involvedWires g, 0 ≤ q ∧ q < (c.nQubits : Int)) →
      ((validatePlacement c t g m).ok = true →
        ∀ q ∈ involvedWires g, slotAt c t q = none ∨
          ∃ e, slotAt c t q = some e ∧ (e.id = g.id ∨ m = some e.id)) ∧
      ((∃ q ∈ involvedWires g, ∃ e, slotAt c t q = some e ∧ e.id ≠ g.id ∧ m ≠ some e.id) →
        validatePlacement c t g m = ⟨false, some "occupied"⟩)) ∧
    validatePlacement c2circ 0 ⟨.H, [0], none, none, "b"⟩ none =
      ⟨false, some "occupied"⟩ := by
  refine ⟨fun c t g m ht hw => ⟨?_, ?_⟩, by decide⟩
  · intro hok q hq
    have hloop := (validatePlacement_ok_loop_none c t g m hok).2
    have hpass := (validateLoop_none_iff c t (effId m g.id) (involvedWires g)).mp hloop q hq
    simp only [wirePass, Bool.and_eq_true] at hpass
    cases hslot : slotAt c t q with
    | none => exact Or.inl rfl
    | some e =>
      refine Or.inr ⟨e, rfl, ?_⟩
      have hfo := hpass.2
      rw [freeOrOwn, hslot, beq_iff_eq] at hfo
      cases m with
      | none => exact Or.inl (by simpa [effId] using hfo)
      | some s =>
        by_cases hs : s = ""
        · exact Or.inl (by simpa [effId, hs] using hfo)
        · right
          simp only [effId, if_neg hs] at hfo
          rw [hfo]
  · rintro ⟨q, hq, e, hslot, hne, hnm⟩
    have heff : e.id ≠ effId m g.id := by
      cases m with
      | none => simpa [effId] using hne
      | some s =>
        by_cases hs : s = ""
        · simpa [effId, hs] using hne
        · simp only [effId, if_neg hs]
          intro hh
          exact hnm (by rw [hh])
    have hnot : validateLoop c t (effId m g.id) (involvedWires g) ≠ none := by
      intro hloop
      have hpass := (validateLoop_none_iff c t (effId m g.id) (involvedWires g)).mp hloop q hq
      simp only [wirePass, Bool.and_eq_true] at hpass
      have hfo := hpass.2
      rw [freeOrOwn, hslot, beq_iff_eq] at hfo
      exact heff hfo
    have hnoob : validateLoop c t (effId m g.id) (involvedWires g) ≠ some "wire_oob" := by
      intro hloop
      obtain ⟨l₁, p, l₂, hsplit, -, hoob⟩ :=
        (validateLoop_wire_oob_iff c t (effId m g.id) (involvedWires g)).mp hloop
      have hp : p ∈ involvedWires g := by
        rw [hsplit]
        exact List.mem_append.mpr (Or.inr (List.mem_cons_self p l₂))
      have := hw p hp
      omega
    rcases validateLoop_cases c t (effId m g.id) (involvedWires g) with h1 | h1 | h1
    · exact absurd h1 hnot
    · exact absurd h1 hnoob
    · exact validatePlacement_reason_loop c t g m ht _ h1

/-- Concrete use of the C2 theorem: a fresh two-wire candidate against an
occupied slot, discharged through the theorem. -/
theorem validatePlacement_occupancy_witness :
    validatePlacement c2circ 0 ⟨.X, [0, 1], none, none, "w"⟩ none =
      ⟨false, some "occupied"⟩ := by
  have h := (validatePlacement_occupancy.1 c2circ 0 ⟨.X, [0, 1], none, none, "w"⟩ none
    (by decide) (by decide)).2
  exact h ⟨0, by decide, c2gA, by decide, by decide, by decide⟩

theorem slotWrite_idem (ow : Bool) (g : GatePlacement) (s : Option GatePlacement) :
    slotWrite ow g (slotWrite ow g s) = slotWrite ow g s := by
  cases ow <;> simp [slotWrite]

theorem writeWires_length (ws : List Int) (ow : Bool) (g : GatePlacement)
    (items : List (Option GatePlacement)) :
    (ws.foldl (writeWire ow g) items).length = items.length := by
  induction ws generalizing items with
  | nil => rfl
  | cons w rest ih =>
    rw [List.foldl_cons, ih]
    unfold writeWire
    split
    · exact updateAt_length _ _ _
    · rfl

theorem writeWires_get_notin (ws : List Int) (ow : Bool) (g : GatePlacement)
    (items : List (Option GatePlacement)) (q : Int) (hq : 0 ≤ q)
    (h : ∀ w ∈ ws, 0 ≤ w → w ≠ q) :
    (ws.foldl (writeWire ow g) items)[q.toNat]? = items[q.toNat]? := by
  induction ws generalizing items with
  | nil => rfl
  | cons w rest ih =>
    rw [List.foldl_cons, ih _ fun w' hw' => h w' (List.mem_cons_of_mem _ hw')]
    unfold writeWire
    split
    · next hw0 =>
      exact updateAt_get_ne _ _ _ _ (by
        have := h w (List.mem_cons_self w rest) hw0
        omega)
    · rfl

theorem writeWires_get_mem (ws : List Int) (ow : Bool) (g : GatePlacement)
    (items : List (Option GatePlacement)) (q : Int) (hq : 0 ≤ q) (hmem : q ∈ ws) :
    (ws.foldl (writeWire ow g) items)[q.toNat]? =
      (items[q.toNat]?).map (slotWrite ow g) := by
  induction ws generalizing items with
  | nil => cases hmem
  | cons w rest ih =>
    rw [List.foldl_cons]
    by_cases hqr : q ∈ rest
    · rw [ih _ hqr]
      by_cases hwq : w = q
      · subst hwq
        rw [writeWire, if_pos hq, updateAt_get_self]
        cases items[w.toNat]? <;> simp [slotWrite_idem]
      · unfold writeWire
        split
        · rw [updateAt_get_ne _ _ _ _ (by omega)]
        · rfl
    · have hwq : w = q := by
        rcases List.mem_cons.mp hmem with h | h
        · exact h.symm
        · exact absurd h hqr
      subst hwq
      rw [writeWires_get_notin rest ow g _ w hq
        (fun w' hw' _ hww => hqr (hww ▸ hw')), writeWire, if_pos hq, updateAt_get_self]

theorem slotAt_neg (c : Circuit) (t q : Int) (h : t < 0 ∨ q < 0) :
    slotAt c t q = none := by
  rw [slotAt, if_neg]
  omega

theorem slotAt_pos (c : Circuit) (t q : Int) (ht : 0 ≤ t) (hq : 0 ≤ q) :
    slotAt c t q =
      (c.columns[t.toNat]?).bind fun col => (col.items[q.toNat]?).getD none := by
  rw [slotAt, if_pos (And.intro ht hq)]

theorem addGate_nQubits (c : Circuit) (t : Int) (g : GatePlacement)
    (opts : Option AddOpts) : (addGate c t g opts).nQubits = c.nQubits := by
  rw [addGate, cloneCircuit_eq]
  split <;> rfl

theorem addGate_columns_length (c : Circuit) (t : Int) (g : GatePlacement)
    (opts : Option AddOpts) :
    (addGate c t g opts).columns.length = c.columns.length := by
  rw [addGate, cloneCircuit_eq]
  split
  · exact updateAt_length _ _ _
  · rfl

theorem addGate_columns_get (c : Circuit) (t : Int) (g : GatePlacement)
    (opts : Option AddOpts) (ht : 0 ≤ t) :
    (addGate c t g opts).columns[t.toNat]? =
      (c.columns[t.toNat]?).map fun col =>
        ⟨(addWires g opts).foldl (writeWire (owOf opts) g) col.items⟩ := by
  rw [addGate, cloneCircuit_eq, if_pos ht]
  exact updateAt_get_self _ _ _

theorem addGate_columns_get_ne (c : Circuit) (t : Int) (g : GatePlacement)
    (opts : Option AddOpts) (i : Nat) (h : ¬(0 ≤ t ∧ i = t.toNat)) :
    (addGate c t g opts).columns[i]? = c.columns[i]? := by
  rw [addGate, cloneCircuit_eq]
  split
  · next ht => exact updateAt_get_ne _ _ _ _ (fun hh => h ⟨ht, hh⟩)
  · rfl

theorem slotAt_addGate_other_col (c : Circuit) (t : Int) (g : GatePlacement)
    (opts : Option AddOpts) (t' q : Int) (h : t' ≠ t) :
    slotAt (addGate c t g opts) t' q = slotAt c t' q := by
  by_cases ht' : 0 ≤ t' ∧ 0 ≤ q
  · rw [slotAt_pos _ _ _ ht'.1 ht'.2, slotAt_pos _ _ _ ht'.1 ht'.2,
      addGate_columns_get_ne c t g opts t'.toNat (by omega)]
  · rw [slotAt_neg _ _ _ (by omega), slotAt_neg _ _ _ (by omega)]

theorem slotAt_addGate_mem (c : Circuit) (t : Int) (g : GatePlacement)
    (opts : Option AddOpts) (q : Int) (hshape : ShapeOK c)
    (ht : 0 ≤ t) (htl : t < (c.columns.length : Int))
    (hq : 0 ≤ q) (hqn : q < (c.nQubits : Int)) (hmem : q ∈ addWires g opts) :
    slotAt (addGate c t g opts) t q =
      some (if owOf opts then g else (slotAt c t q).getD g) := by
  have htn : t.toNat < c.columns.length := by omega
  have hcol : c.columns[t.toNat]? = some c.columns[t.toNat] :=
    List.getElem?_eq_getElem htn
  have hmemcol : c.columns[t.toNat] ∈ c.columns := List.getElem_mem htn
  have hlen : (c.columns[t.toNat]).items.length = c.nQubits := hshape _ hmemcol
  have hqn' : q.toNat < (c.columns[t.toNat]).items.length := by omega
  have hitem : (c.columns[t.toNat]).items[q.toNat]? =
      some (c.columns[t.toNat]).items[q.toNat] :=
    List.getElem?_eq_getElem hqn'
  have hslot : slotAt c t q = (c.columns[t.toNat]).items[q.toNat] := by
    rw [slotAt_pos c t q ht hq, hcol]
    show ((c.columns[t.toNat]).items[q.toNat]?).getD none = _
    rw [hitem]
    rfl
  have hmain : slotAt (addGate c t g opts) t q =
      slotWrite (owOf opts) g ((c.columns[t.toNat]).items[q.toNat]) := by
    rw [slotAt_pos _ t q ht hq, addGate_columns_get c t g opts ht, hcol]
    show ((List.foldl (writeWire (owOf opts) g) (c.columns[t.toNat]).items
      (addWires g opts))[q.toNat]?).getD none = _
    rw [writeWires_get_mem _ _ _ _ _ hq hmem, hitem]
    rfl
  rw [hmain, hslot]
  rfl

theorem slotAt_addGate_notmem (c : Circuit) (t : Int) (g : GatePlacement)
    (opts : Option AddOpts) (q : Int) (hq : q ∉ addWires g opts) :
    slotAt (addGate c t g opts) t q = slotAt c t q := by
  by_cases htq : 0 ≤ t ∧ 0 ≤ q
  · rw [slotAt_pos _ _ _ htq.1 htq.2, slotAt_pos _ _ _ htq.1 htq.2,
      addGate_columns_get c t g opts htq.1]
    cases hcol : c.columns[t.toNat]? with
    | none => rfl
    | some col =>
      show ((List.foldl (writeWire (owOf opts) g) col.items
        (addWires g opts))[q.toNat]?).getD none = _
      rw [writeWires_get_notin _ _ _ _ _ htq.2 fun w hw _ hww => hq (hww ▸ hw)]
      rfl
  · rw [slotAt_neg _ _ _ (by omega), slotAt_neg _ _ _ (by omega)]

/-- Claim C4: for a shape-correct circuit, an in-range column index `t`, and
a placement whose involved wires lie in `[0, wireCount)`, `addGate` writes
exactly into the slots of column `t` at `involvedWires(g)` when
`occupyInvolved` holds and only at `g.targets` otherwise; with
`overwrite=false` an occupied slot keeps its existing placement (the new
gate lands only on empty slots) and with `overwrite=true` the gate replaces
the slot unconditionally; every other wire of column `t`, every other
column, and the wire count are unchanged. -/
theorem addGate_frame (c : Circuit) (t : Int) (g : GatePlacement)
    (opts : Option AddOpts) (hshape : ShapeOK c)
    (ht : 0 ≤ t) (htl : t < (c.columns.length : Int))
    (hw : ∀ q ∈ involvedWires g, 0 ≤ q ∧ q < (c.nQubits : Int)) :
    (addGate c t g opts).nQubits = c.nQubits ∧
      (addGate c t g opts).columns.length = c.columns.length ∧
      (occupyOf opts = true → addWires g opts = involvedWires g) ∧
      (occupyOf opts = false → addWires g opts = g.targets) ∧
      (∀ q ∈ addWires g opts,
        slotAt (addGate c t g opts) t q =
          some (if owOf opts then g else (slotAt c t q).getD g)) ∧
      (∀ q : Int, q ∉ addWires g opts →
        slotAt (addGate c t g opts) t q = slotAt c t q) ∧
      (∀ t' q : Int, t' ≠ t → slotAt (addGate c t g opts) t' q = slotAt c t' q) := by
  refine ⟨addGate_nQubits c t g opts, addGate_columns_length c t g opts,
    fun h => by rw [addWires, if_pos h], fun h => by rw [addWires, if_neg (by simp [h])],
    fun q hq => ?_, fun q hq => slotAt_addGate_notmem c t g opts q hq,
    fun t' q h => slotAt_addGate_other_col c t g opts t' q h⟩
  have hqi : q ∈ involvedWires g := by
    rw [addWires] at hq
    split at hq
    · exact hq
    · exact targets_subset_involvedWires g q hq
  have := hw q hqi
  exact slotAt_addGate_mem c t g opts q hshape ht htl this.1 this.2 hq

/-- Concrete use of the C4 theorem: with the default `overwrite=false`, the
occupied slot (1,0) keeps its earlier placement after a second `addGate`. -/
theorem addGate_frame_witness :
    slotAt (addGate c4circ 1 c4gB) 1 0 = some c4gA := by
  have h := (addGate_frame c4circ 1 c4gB none (by decide) (by decide) (by decide)
    (by decide)).2.2.2.2.1 0 (by decide)
  exact h.trans (by decide)

/-- Claim C5: `ensureColumns` returns the circuit itself when it already has
at least `n` columns; otherwise it keeps the wire count, keeps the existing
columns as a prefix, appends only all-empty columns, and the resulting
column count is always `max(n, c.columns.length)` — it never truncates. -/
theorem ensureColumns_growth (c : Circuit) (n : Int) :
    ((n ≤ (c.columns.length : Int)) → ensureColumns c n = c) ∧
      (ensureColumns c n).nQubits = c.nQubits ∧
      ((ensureColumns c n).columns.length : Int) = max (c.columns.length : Int) n ∧
      (ensureColumns c n).columns.take c.columns.length = c.columns ∧
      (∀ col ∈ (ensureColumns c n).columns.drop c.columns.length,
        col = ⟨List.replicate c.nQubits none⟩) := by
  by_cases h : n ≤ (c.columns.length : Int)
  · rw [ensureColumns, if_pos h]
    refine ⟨fun _ => rfl, rfl, by omega, List.take_length _, ?_⟩
    rw [List.drop_length]
    intro col hcol
    cases hcol
  · rw [ensureColumns, if_neg h]
    refine ⟨fun hh => absurd hh h, rfl, ?_, ?_, ?_⟩
    · rw [List.length_append, List.length_replicate]
      omega
    · rw [List.take_left]
    · rw [List.drop_left]
      intro col hcol
      exact List.eq_of_mem_replicate hcol

/-- Concrete use of the C5 theorem: both the no-op and growth cases. -/
theorem ensureColumns_growth_witness :
    ensureColumns (createEmptyCircuit 2 3) 2 = createEmptyCircuit 2 3 ∧
      ((ensureColumns (createEmptyCircuit 2 3) 5).columns.length : Int) = 5 := by
  constructor
  · exact (ensureColumns_growth (createEmptyCircuit 2 3) 2).1 (by decide)
  · exact ((ensureColumns_growth (createEmptyCircuit 2 3) 5).2.2.1).trans (by decide)

theorem clearSlots_length (n : Nat) (id : String) (q0 : Nat)
    (l : List (Option GatePlacement)) : (clearSlots n id q0 l).length = l.length := by
  induction l generalizing q0 with
  | nil => rfl
  | cons it rest ih => simp [clearSlots, ih]

theorem clearSlots_get (n : Nat) (id : String) (q0 : Nat)
    (l : List (Option GatePlacement)) (i : Nat) :
    (clearSlots n id q0 l)[i]? =
      (l[i]?).map fun it => if q0 + i < n ∧ slotMatches id it then none else it := by
  induction l generalizing q0 i with
  | nil => simp [clearSlots]
  | cons it rest ih =>
    cases i with
    | zero => simp [clearSlots]
    | succ m =>
      have harith : q0 + 1 + m = q0 + (m + 1) := by omega
      simp only [clearSlots, List.getElem?_cons_succ, ih (q0 + 1) m, harith]

theorem removeGateById_nQubits (c : Circuit) (id : String) :
    (removeGateById c id).nQubits = c.nQubits := rfl

theorem removeGateById_columns_length (c : Circuit) (id : String) :
    (removeGateById c id).columns.length = c.columns.length := by
  simp [removeGateById, cloneCircuit_eq]

theorem slotAt_remove (c : Circuit) (id : String) (t q : Int) :
    slotAt (removeGateById c id) t q =
      if q.toNat < c.nQubits ∧ slotMatches id (slotAt c t q) then none
      else slotAt c t q := by
  by_cases htq : 0 ≤ t ∧ 0 ≤ q
  · have hcols : (removeGateById c id).columns =
        c.columns.map fun col => ⟨clearSlots c.nQubits id 0 col.items⟩ := by
      simp [removeGateById, cloneCircuit_eq]
    rw [slotAt_pos _ _ _ htq.1 htq.2, slotAt_pos _ _ _ htq.1 htq.2, hcols,
      List.getElem?_map]
    cases hcol : c.columns[t.toNat]? with
    | none => simp [slotMatches]
    | some col =>
      simp only [Option.map_some', Option.some_bind']
      show ((clearSlots c.nQubits id 0 col.items)[q.toNat]?).getD none = _
      rw [clearSlots_get]
      cases hit : col.items[q.toNat]? with
      | none => simp [slotMatches]
      | some it => simp only [Option.map_some', Option.getD_some, Nat.zero_add]
  · rw [slotAt_neg _ _ _ (by omega), slotAt_neg _ _ _ (by omega)]
    simp [slotMatches]

theorem slotAt_isSome_bounds (c : Circuit) (t q : Int) (g : GatePlacement)
    (hshape : ShapeOK c) (h : slotAt c t q = some g) :
    q.toNat < c.nQubits := by
  rw [slotAt] at h
  split at h
  · cases hcol : c.columns[t.toNat]? with
    | none => rw [hcol] at h; cases h
    | some col =>
      rw [hcol, Option.some_bind'] at h
      cases hit : col.items[q.toNat]? with
      | none => rw [hit] at h; cases h
      | some it =>
        have hi : q.toNat < col.items.length := by
          by_contra hge
          rw [List.getElem?_eq_none (by omega)] at hit
          cases hit
        have hmemcol : col ∈ c.columns := by
          rcases List.getElem?_eq_some.mp hcol with ⟨hl, hc⟩
          exact hc ▸ List.getElem_mem hl
        rw [hshape col hmemcol] at hi
        exact hi
  · cases h

theorem clearSlots_id_of_no_match (n : Nat) (id : String) (q0 : Nat)
    (l : List (Option GatePlacement)) (h : ∀ it ∈ l, slotMatches id it = false) :
    clearSlots n id q0 l = l := by
  induction l generalizing q0 with
  | nil => rfl
  | cons it rest ih =>
    rw [clearSlots, if_neg, ih _ fun x hx => h x (List.mem_cons_of_mem _ hx)]
    rintro ⟨-, hm⟩
    rw [h it (List.mem_cons_self it rest)] at hm
    cases hm

theorem map_clearSlots_id (n : Nat) (id : String) (cols : List Column)
    (h : ∀ col ∈ cols, ∀ it ∈ col.items, slotMatches id it = false) :
    (cols.map fun col => (⟨clearSlots n id 0 col.items⟩ : Column)) = cols := by
  induction cols with
  | nil => rfl
  | cons col rest ih =>
    rw [List.map_cons,
      clearSlots_id_of_no_match _ _ _ _ (h col (List.mem_cons_self col rest)),
      ih fun col' hcol' => h col' (List.mem_cons_of_mem _ hcol')]

/-- Claim C6: `removeGateById` keeps the wire count and column count, leaves
no slot holding the given id, keeps every other slot (empty or with a
different id) unchanged, and is the structural identity when no slot
matched. -/
theorem removeGateById_spec (c : Circuit) (id : String) (hshape : ShapeOK c) :
    (removeGateById c id).nQubits = c.nQubits ∧
      (removeGateById c id).columns.length = c.columns.length ∧
      (∀ t q : Int, ∀ g, slotAt (removeGateById c id) t q = some g → g.id ≠ id) ∧
      (∀ t q : Int, slotAt c t q = none → slotAt (removeGateById c id) t q = none) ∧
      (∀ t q : Int, ∀ g, slotAt c t q = some g → g.id ≠ id →
        slotAt (removeGateById c id) t q = some g) ∧
      ((∀ t q : Int, ∀ g, slotAt c t q = some g → g.id ≠ id) →
        removeGateById c id = c) := by
  refine ⟨removeGateById_nQubits c id, removeGateById_columns_length c id,
    ?_, ?_, ?_, ?_⟩
  · intro t q g h
    rw [slotAt_remove] at h
    split at h
    · cases h
    · next hcond =>
      intro hid
      have hb := slotAt_isSome_bounds c t q g hshape h
      rw [h] at hcond
      exact hcond ⟨hb, by simp [slotMatches, hid]⟩
  · intro t q h
    rw [slotAt_remove, h]
    simp [slotMatches]
  · intro t q g h hid
    rw [slotAt_remove, h]
    rw [if_neg]
    rintro ⟨-, hm⟩
    simp only [slotMatches, decide_eq_true_eq] at hm
    exact hid hm
  · intro h
    have hno : ∀ col ∈ c.columns, ∀ it ∈ col.items, slotMatches id it = false := by
      intro col hcol it hit
      cases it with
      | none => rfl
      | some g =>
        obtain ⟨i, hi, rfl⟩ := List.getElem_of_mem hcol
        obtain ⟨j, hj, hjeq⟩ := List.getElem_of_mem hit
        by_contra hm
        simp only [slotMatches, decide_eq_true_eq, Bool.not_eq_false] at hm
        refine h (i : Int) (j : Int) g ?_ hm
        rw [slotAt_pos _ _ _ (by omega) (by omega)]
        have h1 : ((i : Int)).toNat = i := by omega
        have h2 : ((j : Int)).toNat = j := by omega
        rw [h1, h2, List.getElem?_eq_getElem hi, Option.some_bind',
          List.getElem?_eq_getElem hj, Option.getD_some]
        exact hjeq
    calc removeGateById c id
        = ⟨c.nQubits, c.columns.map fun col => ⟨clearSlots c.nQubits id 0 col.items⟩⟩ := by
          simp [removeGateById, cloneCircuit_eq]
      _ = ⟨c.nQubits, c.columns⟩ := by
          rw [map_clearSlots_id c.nQubits id c.columns hno]
      _ = c := rfl

/-- Concrete use of the C6 theorem: a slot with a different id is kept. -/
theorem removeGateById_spec_witness :
    slotAt (removeGateById c6circ "zz") 0 0 = some c6gA := by
  exact (removeGateById_spec c6circ "zz" (by decide)).2.2.2.2.1 0 0 c6gA
    (by decide) (by decide)

/-- Claim C7: serialization keeps the wire count, the column count, every
column slot count, and maps each slot content pointwise — empty slots
stay empty and an occupied slot is reduced to exactly
`{kind, targets, controls, params, id}` with `controls` defaulted to the
empty list and `params` to the empty map, all other fields equal to the
original placement fields, so the snapshot recovers every slot with `id`
as the stable key. -/
theorem serializeCircuit_preserves (c : Circuit) :
    (serializeCircuit c).nQubits = c.nQubits ∧
      (serializeCircuit c).columns.length = c.columns.length ∧
      (∀ i : Nat, ((serializeCircuit c).columns[i]?).map (fun col => col.items.length) =
        (c.columns[i]?).map fun col => col.items.length) ∧
      (∀ t q : Int, slotAt (serializeCircuit c) t q = (slotAt c t q).map serializeGP) ∧
      (∀ t q : Int, ∀ g, slotAt c t q = some g →
        ∃ g', slotAt (serializeCircuit c) t q = some g' ∧
          g'.type = g.type ∧ g'.targets = g.targets ∧
          g'.controls = some (g.controls.getD []) ∧
          g'.params = some (g.params.getD []) ∧ g'.id = g.id) := by
  have hslot : ∀ t q : Int, slotAt (serializeCircuit c) t q = (slotAt c t q).map serializeGP := by
    intro t q
    by_cases htq : 0 ≤ t ∧ 0 ≤ q
    · rw [slotAt_pos _ _ _ htq.1 htq.2, slotAt_pos _ _ _ htq.1 htq.2]
      show ((c.columns.map fun col =>
        (⟨col.items.map fun it => it.map serializeGP⟩ : Column))[t.toNat]?).bind _ = _
      rw [List.getElem?_map]
      cases hcol : c.columns[t.toNat]? with
      | none => rfl
      | some col =>
        simp only [Option.map_some', Option.some_bind']
        show ((col.items.map fun it => it.map serializeGP)[q.toNat]?).getD none = _
        rw [List.getElem?_map]
        cases hit : col.items[q.toNat]? with
        | none => rfl
        | some it => cases it <;> rfl
    · rw [slotAt_neg _ _ _ (by omega), slotAt_neg _ _ _ (by omega)]
      rfl
  refine ⟨rfl, by simp [serializeCircuit], ?_, hslot, ?_⟩
  · intro i
    show ((c.columns.map fun col =>
      (⟨col.items.map fun it => it.map serializeGP⟩ : Column))[i]?).map _ = _
    rw [List.getElem?_map]
    cases c.columns[i]? <;> simp
  · intro t q g h
    exact ⟨serializeGP g, by rw [hslot t q, h]; rfl, rfl, rfl, rfl, rfl, rfl⟩

/-- Concrete use of the C7 theorem: the slot-wise reduction on an occupied
slot, with `controls`/`params` defaulted. -/
theorem serializeCircuit_preserves_witness :
    slotAt (serializeCircuit c7circ) 0 0 =
      some ⟨.H, [0], some [], some [], "a"⟩ := by
  obtain ⟨g', hg', h1, h2, h3, h4, h5⟩ :=
    (serializeCircuit_preserves c7circ).2.2.2.2 0 0 c7gA (by decide)
  rw [hg']
  cases g' with
  | mk ty ta co pa i =>
    simp only [c7gA] at h1 h2 h3 h4 h5
    rw [h1, h2, h3, h4, h5]
    rfl

/-- Claim C3: `moveGateById` returns the circuit itself — no partial
mutation — when the id is not found or when the relocated candidate
(`targets := [newTargetWire]`, validated with `movingId = id`) fails
validation, e.g. because the destination is occupied by a different id;
only when the candidate validates does it remove then re-add. -/
theorem moveGateById_invalid_noop (c : Circuit) (id : String) (tN qN : Int) :
    (findGate c id = none → moveGateById c id tN qN = c) ∧
      (∀ info, findGate c id = some info →
        (validatePlacement c tN (mkUpdated info.gate qN) (some id)).ok = false →
        moveGateById c id tN qN = c) ∧
      (∀ info, findGate c id = some info →
        (validatePlacement c tN (mkUpdated info.gate qN) (some id)).ok = true →
        moveGateById c id tN qN =
          addGate (removeGateById c id) tN (mkUpdated info.gate qN)) := by
  refine ⟨fun hf => by simp [moveGateById, hf], fun info hf hv => ?_, fun info hf hv => ?_⟩
  · simp [moveGateById, hf, hv]
  · simp [moveGateById, hf, hv]

/-- Concrete use of the C3 theorem: scenario E — moving gate `b` onto the
slot occupied by gate `a` leaves the circuit unchanged. -/
theorem moveGateById_invalid_noop_witness :
    moveGateById c3circ "b" 0 0 = c3circ := by
  exact (moveGateById_invalid_noop c3circ "b" 0 0).2.1 ⟨0, c3gB⟩ (by decide) (by decide)

theorem updateAt_mem {α : Type} (l : List α) (i : Nat) (f : α → α) (x : α)
    (hx : x ∈ updateAt l i f) : x ∈ l ∨ ∃ y ∈ l, x = f y := by
  induction l generalizing i with
  | nil => cases hx
  | cons z zs ih =>
    cases i with
    | zero =>
      rcases List.mem_cons.mp hx with rfl | hx'
      · exact Or.inr ⟨z, List.mem_cons_self z zs, rfl⟩
      · exact Or.inl (List.mem_cons_of_mem _ hx')
    | succ n =>
      rcases List.mem_cons.mp hx with rfl | hx'
      · exact Or.inl (List.mem_cons_self x zs)
      · rcases ih n hx' with h | ⟨y, hy, rfl⟩
        · exact Or.inl (List.mem_cons_of_mem _ h)
        · exact Or.inr ⟨y, List.mem_cons_of_mem _ hy, rfl⟩

theorem addGate_shape (c : Circuit) (t : Int) (g : GatePlacement)
    (opts : Option AddOpts) (hshape : ShapeOK c) : ShapeOK (addGate c t g opts) := by
  intro col hcol
  rw [addGate_nQubits]
  rw [addGate, cloneCircuit_eq] at hcol
  split at hcol
  · rcases updateAt_mem _ _ _ _ hcol with h | ⟨col₀, hcol₀, rfl⟩
    · exact hshape col h
    · show (List.foldl (writeWire (owOf opts) g) col₀.items (addWires g opts)).length = _
      rw [writeWires_length]
      exact hshape col₀ hcol₀
  · exact hshape col hcol

theorem removeGateById_shape (c : Circuit) (id : String) (hshape : ShapeOK c) :
    ShapeOK (removeGateById c id) := by
  intro col hcol
  rw [removeGateById_nQubits]
  have : (removeGateById c id).columns =
      c.columns.map fun col => ⟨clearSlots c.nQubits id 0 col.items⟩ := by
    simp [removeGateById, cloneCircuit_eq]
  rw [this] at hcol
  rcases List.mem_map.mp hcol with ⟨col₀, hcol₀, rfl⟩
  show (clearSlots c.nQubits id 0 col₀.items).length = _
  rw [clearSlots_length]
  exact hshape col₀ hcol₀

theorem ensureColumns_nQubits (c : Circuit) (n : Int) :
    (ensureColumns c n).nQubits = c.nQubits := by
  rw [ensureColumns]
  split <;> rfl

theorem ensureColumns_shape (c : Circuit) (n : Int) (hshape : ShapeOK c) :
    ShapeOK (ensureColumns c n) := by
  intro col hcol
  rw [ensureColumns_nQubits]
  rw [ensureColumns] at hcol
  split at hcol
  · exact hshape col hcol
  · rcases List.mem_append.mp hcol with h | h
    · exact hshape col h
    · rw [List.eq_of_mem_replicate h]
      exact List.length_replicate _ _

theorem moveGateById_cases (c : Circuit) (id : String) (tN qN : Int) :
    moveGateById c id tN qN = c ∨
      ∃ info, findGate c id = some info ∧
        (validatePlacement c tN (mkUpdated info.gate qN) (some id)).ok = true ∧
        moveGateById c id tN qN =
          addGate (removeGateById c id) tN (mkUpdated info.gate qN) := by
  cases hf : findGate c id with
  | none => exact Or.inl (by simp [moveGateById, hf])
  | some info =>
    by_cases hv : (validatePlacement c tN (mkUpdated info.gate qN) (some id)).ok = true
    · exact Or.inr ⟨info, rfl, hv, by simp [moveGateById, hf, hv]⟩
    · left
      simp [moveGateById, hf, hv]

theorem moveGateById_shape (c : Circuit) (id : String) (tN qN : Int)
    (hshape : ShapeOK c) :
    ShapeOK (moveGateById c id tN qN) ∧ (moveGateById c id tN qN).nQubits = c.nQubits := by
  rcases moveGateById_cases c id tN qN with h | ⟨info, -, -, h⟩
  · rw [h]
    exact ⟨hshape, rfl⟩
  · rw [h]
    refine ⟨addGate_shape _ _ _ _ (removeGateById_shape c id hshape), ?_⟩
    rw [addGate_nQubits, removeGateById_nQubits]

/-- Claim C9 (implicit shape invariant): starting from a circuit in which
every column has exactly `wireCount` slots, and with arguments meeting the
operations preconditions, `ensureColumns`, `addGate`, `removeGateById` and
`moveGateById` all return a circuit with the same wire count whose every
column still has exactly `wireCount` slots. -/
theorem ops_preserve_shape (c : Circuit) (hshape : ShapeOK c) :
    (∀ n : Int, ShapeOK (ensureColumns c n) ∧ (ensureColumns c n).nQubits = c.nQubits) ∧
      (∀ (t : Int) (g : GatePlacement) (opts : Option AddOpts),
        0 ≤ t → t < (c.columns.length : Int) →
        (∀ q ∈ involvedWires g, 0 ≤ q ∧ q < (c.nQubits : Int)) →
        ShapeOK (addGate c t g opts) ∧ (addGate c t g opts).nQubits = c.nQubits) ∧
      (∀ id : String, ShapeOK (removeGateById c id) ∧
        (removeGateById c id).nQubits = c.nQubits) ∧
      (∀ (id : String) (tN qN : Int),
        0 ≤ tN → tN < (c.columns.length : Int) → 0 ≤ qN → qN < (c.nQubits : Int) →
        ShapeOK (moveGateById c id tN qN) ∧
          (moveGateById c id tN qN).nQubits = c.nQubits) := by
  refine ⟨fun n => ⟨ensureColumns_shape c n hshape, ensureColumns_nQubits c n⟩,
    fun t g opts _ _ _ => ⟨addGate_shape c t g opts hshape, addGate_nQubits c t g opts⟩,
    fun id => ⟨removeGateById_shape c id hshape, removeGateById_nQubits c id⟩,
    fun id tN qN _ _ _ _ => moveGateById_shape c id tN qN hshape⟩

/-- Concrete use of the C9 theorem: shape is preserved through a move. -/
theorem ops_preserve_shape_witness :
    ShapeOK (moveGateById c9circ "a" 1 1) := by
  exact ((ops_preserve_shape c9circ (by decide)).2.2.2 "a" 1 1
    (by decide) (by decide) (by decide) (by decide)).1

theorem findGate_id (c : Circuit) (id : String) (info : FindResult)
    (h : findGate c id = some info) : info.gate.id = id := by
  obtain ⟨t, ht, hf⟩ := List.exists_of_findSome?_eq_some h
  cases hcol : c.columns[t]? with
  | none =>
    simp only [hcol] at hf
    exact Option.noConfusion hf
  | some col =>
    simp only [hcol] at hf
    cases hg : findInItems id c.nQubits col.items with
    | none =>
      simp only [hg, Option.map_none'] at hf
      exact Option.noConfusion hf
    | some g =>
      simp only [hg, Option.map_some', Option.some.injEq] at hf
      obtain ⟨q, hq, hfq⟩ := List.exists_of_findSome?_eq_some hg
      cases hslot : (col.items[q]?).getD none with
      | none =>
        simp only [hslot] at hfq
        exact Option.noConfusion hfq
      | some g' =>
        simp only [hslot] at hfq
        by_cases hid : g'.id = id
        · rw [if_pos hid] at hfq
          injection hfq with hfq
          rw [← hf]
          show g.id = id
          rw [← hfq]
          exact hid
        · rw [if_neg hid] at hfq
          cases hfq

theorem effId_self (id : String) : effId (some id) id = id := by
  by_cases h : id = "" <;> simp [effId, h]

/-- Claim C10: when the id is found and the relocated candidate validates,
`moveGateById` commits remove-then-add of a candidate whose `targets` is
exactly `[newTargetWire]` while `kind`, `controls`, `params` and `id` are the
original placement fields; the candidate (controls included, e.g. a CNOT
control wire at its original index) occupies the new column slots at the
new target wire and at every control wire, and any second target of the
original gate is dropped. -/
theorem moveGateById_retarget (c : Circuit) (id : String) (tN qN : Int)
    (info : FindResult) (hshape : ShapeOK c)
    (hf : findGate c id = some info)
    (hv : (validatePlacement c tN (mkUpdated info.gate qN) (some id)).ok = true) :
    moveGateById c id tN qN =
      addGate (removeGateById c id) tN (mkUpdated info.gate qN) ∧
      (mkUpdated info.gate qN).type = info.gate.type ∧
      (mkUpdated info.gate qN).targets = [qN] ∧
      (mkUpdated info.gate qN).controls = info.gate.controls ∧
      (mkUpdated info.gate qN).params = info.gate.params ∧
      (mkUpdated info.gate qN).id = info.gate.id ∧
      slotAt (moveGateById c id tN qN) tN qN = some (mkUpdated info.gate qN) ∧
      (∀ qc ∈ info.gate.controls.getD [],
        slotAt (moveGateById c id tN qN) tN qc = some (mkUpdated info.gate qN)) := by
  have hmove : moveGateById c id tN qN =
      addGate (removeGateById c id) tN (mkUpdated info.gate qN) := by
    simp [moveGateById, hf, hv]
  obtain ⟨ht, hloop⟩ := validatePlacement_ok_loop_none c tN (mkUpdated info.gate qN)
    (some id) hv
  have heff : effId (some id) (mkUpdated info.gate qN).id = id := by
    show effId (some id) info.gate.id = id
    rw [findGate_id c id info hf]
    exact effId_self id
  have hslotq : ∀ q ∈ involvedWires (mkUpdated info.gate qN),
      slotAt (moveGateById c id tN qN) tN q = some (mkUpdated info.gate qN) := by
    intro q hq
    have hp := (validateLoop_none_iff c tN _ _).mp hloop q hq
    rw [wirePass, heff, Bool.and_eq_true, Bool.and_eq_true] at hp
    obtain ⟨⟨hq0, hqn⟩, hfo⟩ := hp
    rw [decide_eq_true_eq] at hq0 hqn
    have hempty : slotAt (removeGateById c id) tN q = none := by
      rw [slotAt_remove]
      cases hslot : slotAt c tN q with
      | none => simp [slotMatches]
      | some e =>
        have heid : e.id = id := by
          rw [freeOrOwn, hslot, beq_iff_eq] at hfo
          exact hfo
        rw [if_pos ⟨by omega, by simp [slotMatches, heid]⟩]
    have haw : q ∈ addWires (mkUpdated info.gate qN) none := hq
    have hres := slotAt_addGate_mem (removeGateById c id) tN (mkUpdated info.gate qN)
      none q (removeGateById_shape c id hshape) (by omega)
      (by rw [removeGateById_columns_length]; omega)
      hq0 (by rw [removeGateById_nQubits]; exact hqn) haw
    rw [hmove, hres, hempty]
    rfl
  refine ⟨hmove, rfl, rfl, rfl, rfl, rfl, ?_, ?_⟩
  · refine hslotq qN ((mem_involvedWires _ qN).mpr (Or.inl ?_))
    show qN ∈ [qN]
    exact List.mem_singleton_self qN
  · intro qc hqc
    exact hslotq qc ((mem_involvedWires _ qc).mpr (Or.inr hqc))

/-- Concrete use of the C10 theorem: moving a committed CNOT (control 0,
target 2) from column 1 to column 2 carries the control to slot (2,0). -/
theorem moveGateById_retarget_witness :
    slotAt (moveGateById c10circ "cg" 2 2) 2 0 = some (mkUpdated c10g 2) := by
  have h := (moveGateById_retarget c10circ "cg" 2 2 ⟨1, c10g⟩ (by decide)
    (by decide) (by decide)).2.2.2.2.2.2.2
  exact h 0 (by decide)

theorem uniqStep_none (col : Column) (acc : List GatePlacement) (q : Nat)
    (h : (col.items[q]?).getD none = none) : uniqStep col acc q = acc := by
  rw [uniqStep, h]

theorem uniqStep_some (col : Column) (acc : List GatePlacement) (q : Nat)
    (gp : GatePlacement) (h : (col.items[q]?).getD none = some gp) :
    uniqStep col acc q =
      if acc.any fun h => h.id == gp.id then acc else acc ++ [gp] := by
  rw [uniqStep, h]

theorem uniqFold_nodup (col : Column) (qs : List Nat) (acc : List GatePlacement)
    (h : (acc.map fun g => g.id).Nodup) :
    ((qs.foldl (uniqStep col) acc).map fun g => g.id).Nodup := by
  induction qs generalizing acc with
  | nil => exact h
  | cons q rest ih =>
    rw [List.foldl_cons]
    refine ih _ ?_
    cases hsl : (col.items[q]?).getD none with
    | none =>
      rw [uniqStep_none col acc q hsl]
      exact h
    | some gp =>
      rw [uniqStep_some col acc q gp hsl]
      by_cases hany : (acc.any fun h => h.id == gp.id) = true
      · rw [if_pos hany]
        exact h
      · rw [if_neg hany]
        rw [List.map_append, List.map_singleton]
        rw [List.nodup_append]
        refine ⟨h, List.nodup_singleton _, ?_⟩
        intro s hs hs1
        rw [List.mem_singleton] at hs1
        subst hs1
        rcases List.mem_map.mp hs with ⟨g', hg', hgid⟩
        exact hany (List.any_eq_true.mpr ⟨g', hg', by rw [beq_iff_eq]; exact hgid⟩)

theorem uniqFold_id_mono (col : Column) (qs : List Nat) (acc : List GatePlacement)
    (s : String) (h : s ∈ acc.map fun g => g.id) :
    s ∈ (qs.foldl (uniqStep col) acc).map fun g => g.id := by
  induction qs generalizing acc with
  | nil => exact h
  | cons q rest ih =>
    rw [List.foldl_cons]
    refine ih _ ?_
    cases hsl : (col.items[q]?).getD none with
    | none =>
      rw [uniqStep_none col acc q hsl]
      exact h
    | some gp =>
      rw [uniqStep_some col acc q gp hsl]
      split
      · exact h
      · rw [List.map_append]
        exact List.mem_append.mpr (Or.inl h)

theorem uniqFold_covers (col : Column) (qs : List Nat) (acc : List GatePlacement)
    (q : Nat) (gp : GatePlacement) (hq : q ∈ qs)
    (hslot : (col.items[q]?).getD none = some gp) :
    gp.id ∈ (qs.foldl (uniqStep col) acc).map fun g => g.id := by
  induction qs generalizing acc with
  | nil => cases hq
  | cons q' rest ih =>
    rw [List.foldl_cons]
    rcases List.mem_cons.mp hq with rfl | hq'
    · refine uniqFold_id_mono col rest _ _ ?_
      rw [uniqStep_some col acc q gp hslot]
      by_cases hany : (acc.any fun h => h.id == gp.id) = true
      · rw [if_pos hany]
        rcases List.any_eq_true.mp hany with ⟨g', hg', hgid⟩
        rw [beq_iff_eq] at hgid
        exact List.mem_map.mpr ⟨g', hg', hgid⟩
      · rw [if_neg hany, List.map_append, List.map_singleton]
        exact List.mem_append.mpr (Or.inr (List.mem_singleton_self _))
    · exact ih _ hq'

theorem opOf_column (t : Int) (g : GatePlacement) : (opOf t g).column = t := by
  cases hgt : g.type <;> simp [opOf, hgt]

theorem colOps_column (c : Circuit) (t : Nat) :
    ∀ op ∈ colOps c t, op.column = (t : Int) := by
  intro op hop
  cases hcol : c.columns[t]? with
  | none => simp [colOps, hcol] at hop
  | some col =>
    simp only [colOps, hcol] at hop
    rcases List.mem_map.mp hop with ⟨g, -, rfl⟩
    exact opOf_column _ g

theorem emitOps_sorted (c : Circuit) :
    (emitOps c).Pairwise fun o₁ o₂ => o₁.column ≤ o₂.column := by
  rw [emitOps, List.pairwise_flatten]
  constructor
  · intro l' hl'
    rcases List.mem_map.mp hl' with ⟨t, -, rfl⟩
    refine List.pairwise_of_forall_mem_list ?_
    intro a ha b hb
    rw [colOps_column c t a ha, colOps_column c t b hb]
  · rw [List.pairwise_map]
    refine (List.pairwise_lt_range _).imp ?_
    intro t₁ t₂ hlt a ha b hb
    rw [colOps_column c t₁ a ha, colOps_column c t₂ b hb]
    exact_mod_cast Nat.le_of_lt hlt

theorem probsGo_length (im : List ℚ) (i0 : Nat) (l : List ℚ) :
    (probsGo im i0 l).length = l.length := by
  induction l generalizing i0 with
  | nil => rfl
  | cons r rest ih => simp [probsGo, ih]

theorem probsGo_get (im : List ℚ) (i0 : Nat) (l : List ℚ) (j : Nat) :
    (probsGo im i0 l)[j]? =
      (l[j]?).map fun r => r * r + im.getD (i0 + j) 0 * im.getD (i0 + j) 0 := by
  induction l generalizing i0 j with
  | nil => simp [probsGo]
  | cons r rest ih =>
    cases j with
    | zero => simp [probsGo]
    | succ m =>
      have harith : i0 + 1 + m = i0 + (m + 1) := by omega
      simp only [probsGo, List.getElem?_cons_succ, ih (i0 + 1) m, harith]

/-- Claim C8: within each column the adapter deduplicates placements by id
(the collected list carries no id twice and covers every occupied slot id),
each collected placement yields exactly one gate operation
(`colOps = map opOf`), operations are emitted in increasing column order,
and each per-basis-state probability is `re² + im²`.  Concretely, the
committed CNOT of `c8circ` occupies two slots of column 1 yet emits exactly
one operation. -/
theorem adapter_dedup_order_probs :
    (∀ (n : Nat) (col : Column), ((colUniqueGates n col).map fun g => g.id).Nodup) ∧
      (∀ (n : Nat) (col : Column) (q : Nat) (gp : GatePlacement), q < n →
        (col.items[q]?).getD none = some gp →
        ∃ gp' ∈ colUniqueGates n col, gp'.id = gp.id) ∧
      (∀ (c : Circuit) (t : Nat) (col : Column), c.columns[t]? = some col →
        colOps c t = (colUniqueGates c.nQubits col).map (opOf (t : Int))) ∧
      (∀ (c : Circuit) (t : Nat), ∀ op ∈ colOps c t, op.column = (t : Int)) ∧
      (∀ c : Circuit, (emitOps c).Pairwise fun o₁ o₂ => o₁.column ≤ o₂.column) ∧
      (∀ re im : List ℚ, (probsOf re im).length = re.length) ∧
      (∀ (re im : List ℚ) (i : Nat), i < re.length →
        (probsOf re im)[i]? =
          some (re.getD i 0 * re.getD i 0 + im.getD i 0 * im.getD i 0)) ∧
      (slotAt c8circ 1 0 = some c8g ∧ slotAt c8circ 1 2 = some c8g ∧
        emitOps c8circ = [⟨"cx", 1, [some 0, some 2]⟩]) := by
  refine ⟨fun n col => uniqFold_nodup col _ _ List.nodup_nil,
    fun n col q gp hq hslot => ?_,
    fun c t col hcol => by simp [colOps, hcol],
    colOps_column, emitOps_sorted,
    fun re im => probsGo_length im 0 re,
    fun re im i hi => ?_, by refine ⟨by decide, by decide, by decide⟩⟩
  · have hmem := uniqFold_covers col (List.range n) [] q gp
      (List.mem_range.mpr hq) hslot
    rcases List.mem_map.mp hmem with ⟨gp', hgp', hid⟩
    exact ⟨gp', hgp', hid⟩
  · rw [probsOf, probsGo_get im 0 re i, List.getElem?_eq_getElem hi]
    simp only [Option.map_some', Nat.zero_add]
    have : re[i] = re.getD i 0 := by
      rw [List.getD_eq_getElem?_getD, List.getElem?_eq_getElem hi]
      rfl
    rw [this]

/-- Concrete use of the C8 theorem: the probability formula at index 0 of a
two-amplitude statevector. -/
theorem adapter_dedup_order_probs_witness :
    (probsOf [(3 : ℚ), 0] [4, 1])[0]? = some 25 := by
  have h := adapter_dedup_order_probs.2.2.2.2.2.2.1 [(3 : ℚ), 0] [4, 1] 0 (by decide)
  rw [h]
  norm_num

end MQ
